import Mathlib

/-!
# A verification development for the `crude-profiler` accounting engine

This file is a shallow embedding of `src/src/lib.rs` of the
`crude-profiler` repository, together with theorems settling the claims
about its specification.

Modelling decisions (all fixed here, so that every definition can be
diffed line by line against the Rust source):

* `std::time::Instant` is modelled by `Nat` (an abstract monotone clock
  reading); `std::time::Duration` by `Nat`.  `Instant::duration_since`
  becomes truncated subtraction, which agrees with the source because the
  source only subtracts when `now > self.started`.
* `HashMap<K, V>` is modelled by an association list `List (K × Nat)`
  with the `entry` semantics of the source (`add_to_map` /
  `increment_map` update the existing entry in place, or append a fresh
  one).  Keys are unique by construction.  Iteration order of a Rust
  `HashMap` is arbitrary; in this model iteration order is insertion
  order.  Theorems whose truth would depend on a particular hash-map
  iteration order are treated accordingly in their doc comments.
* `Vec::sort` / `sort_by_key` are stable sorts in Rust; they are
  modelled by `List.insertionSort`, which is stable and computes by
  kernel reduction.
* The global `PROFILE: Mutex<Profile>` serialises all operations; the
  embedding therefore models each public operation as a function from
  the locked `Profile` state (plus the instants read by
  `Instant::now()`, in source order) to the new state.
* Floating-point rendering (`pretty_time`, the `{:4.1}%` percentages) is
  presentation only; each emitted report line is modelled structurally
  by its indentation flag, its text (label or pretty-printed path, which
  the source prints verbatim), and the `Duration`/count pair the printed
  numbers are computed from.
-/

/-! ## Map helpers (`add_to_map`, `increment_map`, lines 39-60 of lib.rs) -/

/-- `add_to_map` of the source: add `d` to the entry at key `k`, inserting
the entry if it is absent (`HashMap::entry` semantics). -/
def add_to_map {α : Type} [DecidableEq α] : List (α × Nat) → α → Nat → List (α × Nat)
  | [], k, d => [(k, d)]
  | (k', v) :: m, k, d =>
    if k' = k then (k', v + d) :: m else (k', v) :: add_to_map m k d

/-- `increment_map` of the source: add `n` to the entry at key `k`,
inserting the entry if it is absent. -/
def increment_map {α : Type} [DecidableEq α] : List (α × Nat) → α → Nat → List (α × Nat)
  | [], k, n => [(k, n)]
  | (k', v) :: m, k, n =>
    if k' = k then (k', v + n) :: m else (k', v) :: increment_map m k n

/-- Key lookup in the association-list model of `HashMap`. -/
def lookup {α : Type} [DecidableEq α] : List (α × Nat) → α → Option Nat
  | [], _ => none
  | (k', v) :: m, k => if k' = k then some v else lookup m k

/-- Lookup with a default, modelling `m[k]` at call sites where the key is
known to be present (the default is never hit there). -/
def lookupD {α : Type} [DecidableEq α] (m : List (α × Nat)) (k : α) (d : Nat) : Nat :=
  (lookup m k).getD d

/-- Fold a batch of `(key, value)` additions through `add_to_map`
(helper used to reason about the accumulation loops of `report`). -/
def applyAdds {α : Type} [DecidableEq α] (init : List (α × Nat)) (adds : List (α × Nat)) :
    List (α × Nat) :=
  adds.foldl (fun m a => add_to_map m a.1 a.2) init

/-! ## The accounting state (`struct Profile`, lines 32-37) -/

/-- The `Profile` struct: path→duration map, path→count map, the active
stack, and `started`, the instant of the last commit. -/
structure Profile where
  times : List (List String × Nat)
  counts : List (List String × Nat)
  stack : List String
  started : Nat
deriving DecidableEq, Repr

/-- `Profile::new` (lines 63-70): empty maps, empty stack, `started` is
the creation instant. -/
def Profile.new (t0 : Nat) : Profile :=
  { times := [], counts := [], stack := [], started := t0 }

/-- `Profile::add_time` (lines 71-76): if `now > self.started`, add
`now - self.started` to `times[self.stack]`.  Note that the source does
NOT update `self.started` here; callers that rebase it do so separately. -/
def Profile.add_time (p : Profile) (now : Nat) : Profile :=
  if p.started < now then
    { p with times := add_to_map p.times p.stack (now - p.started) }
  else p

/-! ## Public operations (lines 87-148)

Each `std::time::Instant::now()` read of the source becomes one `Nat`
parameter, in source order: `n1` is the read at the top of the function,
`n2` the read used to rebase `started` (absent in `report` and `clear`). -/

/-- `push` (lines 130-139): commit the pending interval to the current
stack, push `task`, bump the count of the new stack, rebase `started`. -/
def push (p : Profile) (task : String) (n1 n2 : Nat) : Profile :=
  let q := p.add_time n1
  let st := q.stack ++ [task]
  { q with stack := st, counts := increment_map q.counts st 1, started := n2 }

/-- `Guard::replace` (lines 109-118): commit, pop the top of the stack,
push `task`, bump the count of the new stack, rebase `started`.
(`Vec::pop` on an empty stack is a no-op, hence `dropLast`.) -/
def Guard.replace (p : Profile) (task : String) (n1 n2 : Nat) : Profile :=
  let q := p.add_time n1
  let st := q.stack.dropLast ++ [task]
  { q with stack := st, counts := increment_map q.counts st 1, started := n2 }

/-- `impl Drop for Guard` (lines 87-95): commit, pop the top of the
stack, rebase `started`.  `Vec::pop` returns an `Option` that the source
discards, so popping an empty stack is a silent no-op (`dropLast`). -/
def Guard.drop (p : Profile) (n1 n2 : Nat) : Profile :=
  let q := p.add_time n1
  { q with stack := q.stack.dropLast, started := n2 }

/-- `clear` (lines 142-148): fresh maps, fresh stack, `started := now`. -/
def clear (n1 : Nat) : Profile :=
  { times := [], counts := [], stack := [], started := n1 }

/-! ## The report generator (lines 150-239) -/

/-- `pretty_stack` (lines 150-157): each label followed by `":"`. -/
def pretty_stack (v : List String) : String :=
  v.foldl (fun out s => out ++ s ++ ":") ""

/-- `total_time` of `report` (lines 185-188): sum of all stored durations. -/
def sumTimes (p : Profile) : Nat :=
  (p.times.map Prod.snd).sum

/-- Strict lexicographic order on labels by Unicode scalar value — the
`Ord` of `&str` (UTF-8 byte order and scalar-value order coincide). -/
def charListLtB : List Char → List Char → Bool
  | [], [] => false
  | [], _ :: _ => true
  | _ :: _, [] => false
  | a :: cs, b :: ds =>
    if a.toNat < b.toNat then true
    else if b.toNat < a.toNat then false
    else charListLtB cs ds

/-- Strict order on labels (`&str` comparison). -/
def strLtB (a b : String) : Bool := charListLtB a.data b.data

/-- The `Ord` instance of `Vec<&str>` used by `keys.sort()`:
lexicographic element-wise comparison, a strict prefix comparing less. -/
def pathLeB : List String → List String → Bool
  | [], _ => true
  | _ :: _, [] => false
  | a :: as, b :: bs => if strLtB a b then true else if strLtB b a then false else pathLeB as bs

/-- `keys` of `report` (lines 189-190): the keys of `times`, sorted.
(`Vec::sort` is stable; on the distinct keys of a map any stable sort
produces the unique sorted enumeration.) -/
def keys (m : Profile) : List (List String) :=
  @List.insertionSort (List String) (fun a b => pathLeB a b = true)
    (fun a b => instDecidableEqBool (pathLeB a b) true) (m.times.map Prod.fst)

/-- The `cum` map of `report` (lines 191-198): for every sorted key `k`
and every element `s` of `k` (once per occurrence, as in the source's
`for &s in k.iter()`), add `times[k]` to `cum[s]`. -/
def cum (m : Profile) : List (String × Nat) :=
  (keys m).foldl
    (fun c k => k.foldl (fun c s => add_to_map c s (lookupD m.times k 0)) c) []

/-- The `cumcount` map of `report` (lines 192-198), built in the same
loop as `cum` in the source; the two components are independent, so they
are modelled as two folds of identical shape. -/
def cumcount (m : Profile) : List (String × Nat) :=
  (keys m).foldl
    (fun c k => k.foldl (fun c s => add_to_map c s (lookupD m.counts k 0)) c) []

/-- `shortkeys` of `report` (lines 199-201): the keys of `cum`, stably
sorted by ascending `cum[s]` and then reversed.  In the source the
pre-sort enumeration is the arbitrary `HashMap` iteration order; in this
model it is insertion order. -/
def shortkeys (m : Profile) : List String :=
  (@List.insertionSort String (fun a b => lookupD (cum m) a 0 ≤ lookupD (cum m) b 0)
    (fun a b => Nat.decLe (lookupD (cum m) a 0) (lookupD (cum m) b 0))
    ((cum m).map Prod.fst)).reverse

/-- The way key of a path `k` for a label `s` (lines 207-208):
`k.split(|&ss| ss == *s).next().unwrap()` is the segment before the
first occurrence of `s` (i.e. `takeWhile (· != s)`), and the source then
pushes `s` onto it. -/
def wayKey (k : List String) (s : String) : List String :=
  k.takeWhile (fun x => x != s) ++ [s]

/-- The `ways` map of `report` for a label `s` (lines 204-211): every
sorted key containing `s`, grouped under its way key, durations summed. -/
def ways (m : Profile) (s : String) : List (List String × Nat) :=
  ((keys m).filter (fun k => k.contains s)).foldl
    (fun w k => add_to_map w (wayKey k s) (lookupD m.times k 0)) []

/-- The `wayscount` map of `report` (lines 205-211), built in the same
loop as `ways` in the source. -/
def wayscount (m : Profile) (s : String) : List (List String × Nat) :=
  ((keys m).filter (fun k => k.contains s)).foldl
    (fun w k => add_to_map w (wayKey k s) (lookupD m.counts k 0)) []

/-- `waykeys` of `report` (lines 212-214): the keys of `ways`, stably
sorted by ascending `ways[k]` and then reversed. -/
def waykeys (m : Profile) (s : String) : List (List String) :=
  (@List.insertionSort (List String)
    (fun a b => lookupD (ways m s) a 0 ≤ lookupD (ways m s) b 0)
    (fun a b => Nat.decLe (lookupD (ways m s) a 0) (lookupD (ways m s) b 0))
    ((ways m s).map Prod.fst)).reverse

/-- One emitted report line, modelled structurally: indentation flag,
printed text (the label or the pretty-printed path), and the duration
and count the printed figures are computed from.  `blank` would model an
empty separator line (the source never emits one). -/
inductive RLine where
  | line (indented : Bool) (text : String) (dur : Nat) (cnt : Nat)
  | blank
deriving DecidableEq, Repr

/-- The lines `report` emits for one label `s` (lines 215-235): with
more than one way, a header line for `s` followed by one indented line
per way (the source re-filters `waykeys` by `k.contains(s)`); otherwise
a single line showing `pretty_stack(waykeys[0])` with the cumulative
figures. -/
def linesFor (m : Profile) (s : String) : List RLine :=
  if 1 < (waykeys m s).length then
    RLine.line false s (lookupD (cum m) s 0) (lookupD (cumcount m) s 0)
      :: ((waykeys m s).filter (fun k => k.contains s)).map
          (fun k => RLine.line true (pretty_stack k)
            (lookupD (ways m s) k 0) (lookupD (wayscount m s) k 0))
  else
    [RLine.line false (pretty_stack ((waykeys m s).headD []))
      (lookupD (cum m) s 0) (lookupD (cumcount m) s 0)]

/-- All lines of the report, in emission order (lines 203-236). -/
def linesOf (m : Profile) : List RLine :=
  (shortkeys m).flatMap (linesFor m)

/-- `report` (lines 180-239): perform `add_time(now)` on the locked
state — the source does NOT rebase `started` here — and render the lines
from the resulting state.  Returned as (new state, emitted lines). -/
def report (p : Profile) (now : Nat) : Profile × List RLine :=
  (p.add_time now, linesOf (p.add_time now))

/-! ## Execution histories

The mutex serialises all operations; a history is a list of operations,
each carrying the instants its `Instant::now()` calls returned. -/

/-- One public operation of the library. -/
inductive Op where
  | push (task : String)
  | replace (task : String)
  | drop
  | clear
  | report
deriving DecidableEq, Repr

/-- State transition of one public operation.  `n1` is the first
`Instant::now()` read of the operation, `n2` the second (`clear` and
`report` perform only one read; `n2` is unused there). -/
def step (p : Profile) : Op → Nat → Nat → Profile
  | Op.push t, n1, n2 => push p t n1 n2
  | Op.replace t, n1, n2 => Guard.replace p t n1 n2
  | Op.drop, n1, n2 => Guard.drop p n1 n2
  | Op.clear, n1, _ => clear n1
  | Op.report, n1, _ => (report p n1).1

/-- States reachable from a freshly created profile by public operations
with arbitrary clock readings. -/
inductive Reachable : Profile → Prop where
  | init (t0 : Nat) : Reachable (Profile.new t0)
  | next (p : Profile) (op : Op) (n1 n2 : Nat) :
      Reachable p → Reachable (step p op n1 n2)

/-- Run a list of operations (each with its two clock readings). -/
def runOps (p : Profile) : List (Op × Nat × Nat) → Profile
  | [] => p
  | (op, n1, n2) :: tr => runOps (step p op n1 n2) tr

/-- Is this operation a `report`? -/
def isReport : Op → Bool
  | Op.report => true
  | _ => false

/-- A history with no `report` operation. -/
def reportFree (tr : List (Op × Nat × Nat)) : Bool :=
  tr.all (fun x => !(isReport x.1))

/-- A monotone clock: every reading is at least `t` and the readings are
non-decreasing along the history. -/
def monoFrom (t : Nat) : List (Op × Nat × Nat) → Bool
  | [] => true
  | (_, n1, n2) :: tr => decide (t ≤ n1) && decide (n1 ≤ n2) && monoFrom n2 tr

/-- The instant of the last `clear` in the history (`base` if none). -/
def lastClearFrom (base : Nat) : List (Op × Nat × Nat) → Nat
  | [] => base
  | (Op.clear, n1, _) :: tr => lastClearFrom n1 tr
  | _ :: tr => lastClearFrom base tr

/-! ## Spec-side definitions (used only to state refutations/refinements) -/

/-- Modelled from the spec's words for claim C4: the cumulative figure
of a label `s`, with "every Path containing s" contributing its duration
"exactly once" (the `times` map has one entry per distinct path). -/
def specCum (m : Profile) (s : String) : Nat :=
  (m.times.map (fun kv => if s ∈ kv.1 then kv.2 else 0)).sum

/-- Index of the first occurrence of `s` (spec-side helper for C5). -/
def firstIdx (s : String) : List String → Nat
  | [] => 0
  | a :: k => if a = s then 0 else firstIdx s k + 1

/-- Modelled from the spec's words for claim C5: the sub-path of `k`
consisting of everything up to and including the first occurrence of
`s` (if `s` does not occur, the way key the code builds is `k ++ [s]`). -/
def specWayKey (k : List String) (s : String) : List String :=
  if s ∈ k then k.take (firstIdx s k + 1) else k ++ [s]

/-! ## Concrete states used by counterexamples and witnesses -/

/-- `push("a")` on a fresh profile at instant 0. -/
def pC2 : Profile := push (Profile.new 0) "a" 0 0

/-- A profile whose only path is `["a", "a"]` (the label `"a"` pushed
twice), with 3 time units on it:  reachable by `push("a")`, `push("a")`,
then dropping the inner guard at instant 3. -/
def pC4 : Profile := Guard.drop (push (push (Profile.new 0) "a" 0 0) "a" 0 0) 3 3

/-- A profile with two singleton paths `["a"]` and `["b"]` holding equal
durations (5 units each). -/
def pC6 : Profile :=
  Guard.drop (push (Guard.drop (push (Profile.new 0) "a" 0 0) 5 5) "b" 5 5) 10 10

/-- A profile with the two paths `["a", "c"]` (5 units) and `["b", "c"]`
(3 units): the label `"c"` has two distinct ways. -/
def pC7 : Profile :=
  Guard.drop (Guard.drop (push (push
    (Guard.drop (Guard.drop (push (push (Profile.new 0) "a" 0 0) "c" 0 0) 5 5) 5 5)
    "b" 5 5) "c" 5 5) 8 8) 8 8

/-- The counting invariant of reachable states: every non-empty key of
the times map is a key of the counts map, every non-empty prefix of the
active stack is a key of the counts map, and every stored count is at
least 1. -/
def CountsInv (p : Profile) : Prop :=
  (∀ kv ∈ p.times, kv.1 = [] ∨ (lookup p.counts kv.1).isSome)
    ∧ (∀ n : Nat, p.stack.take n ≠ [] → (lookup p.counts (p.stack.take n)).isSome)
    ∧ (∀ kv ∈ p.counts, 1 ≤ kv.2)

/-! ## Helper lemmas about the map model -/

theorem lookupD_add_to_map_self {α : Type} [DecidableEq α] (m : List (α × Nat)) (k : α) (d : Nat) :
    lookupD (add_to_map m k d) k 0 = lookupD m k 0 + d := by
  induction m with
  | nil => simp [add_to_map, lookup, lookupD]
  | cons kv m ih =>
    obtain ⟨a, v⟩ := kv
    by_cases h1 : a = k
    · simp [add_to_map, lookup, lookupD, h1]
    · simp only [add_to_map, if_neg h1, lookup, lookupD]
      simpa [lookupD] using ih

theorem lookupD_add_to_map_ne {α : Type} [DecidableEq α] (m : List (α × Nat)) (k j : α)
    (d : Nat) (h : j ≠ k) : lookupD (add_to_map m k d) j 0 = lookupD m j 0 := by
  induction m with
  | nil =>
    have hkj : ¬ k = j := fun hk => h hk.symm
    simp [add_to_map, lookup, lookupD, hkj]
  | cons kv m ih =>
    obtain ⟨a, v⟩ := kv
    by_cases h1 : a = k <;> by_cases h2 : a = j <;>
      simp_all [add_to_map, lookup, lookupD]

theorem lookupD_add_to_map {α : Type} [DecidableEq α] (m : List (α × Nat)) (k j : α) (d : Nat) :
    lookupD (add_to_map m k d) j 0 = lookupD m j 0 + if j = k then d else 0 := by
  by_cases h : j = k
  · subst h; simp [lookupD_add_to_map_self]
  · simp [h, lookupD_add_to_map_ne m k j d h]

/-! ## Claim C1 -/

/-- Claim C1: for every public operation (`push`, `Guard::replace`,
`Guard` drop, `report`), the interval since the last commit is added to
the record of exactly the stack that was active before the operation's
mutation (`p.stack`, `p.times`), and it is added precisely when the
observed `now` is strictly after the stored `started` instant. -/
theorem c1_commit_attribution (p : Profile) (task : String) (now n2 : Nat) :
    (push p task now n2).times
        = (if p.started < now then add_to_map p.times p.stack (now - p.started) else p.times)
      ∧ (Guard.replace p task now n2).times
        = (if p.started < now then add_to_map p.times p.stack (now - p.started) else p.times)
      ∧ (Guard.drop p now n2).times
        = (if p.started < now then add_to_map p.times p.stack (now - p.started) else p.times)
      ∧ ((report p now).1).times
        = (if p.started < now then add_to_map p.times p.stack (now - p.started) else p.times) := by
  refine ⟨?_, ?_, ?_, ?_⟩ <;>
  · simp only [push, Guard.replace, Guard.drop, report, Profile.add_time]
    by_cases h : p.started < now <;> simp [h]

/-! ## Claim C2 -/

/-- Counterexample for claim C2 as stated: after `push("a")` at instant
0 (so `started = 0`), a `report` at instant 5 commits 5 units but leaves
`started = 0` instead of advancing it to 5; a second `report` at instant
9, with no intervening operation, then re-attributes the already
committed interval, leaving 14 units recorded although only 9 units of
wall clock have passed.  So `report` is not idempotent and the pending
interval is not attributed "at most once". -/
theorem c2_report_recommit_counterexample :
    ((report pC2 5).1).started = 0
      ∧ ¬ ((report pC2 5).1).started = 5
      ∧ ((report pC2 5).1).times = [(["a"], 5)]
      ∧ ((report (report pC2 5).1 9).1).times = [(["a"], 14)]
      ∧ 9 < sumTimes ((report (report pC2 5).1 9).1) := by decide

/-- Claim C2, amended: `report`'s only side effect on the accounting
state is the final commit of the pending interval to the active path;
it leaves `counts`, `stack` and — contrary to the claim — `started`
unchanged.  Because `started` is not advanced, a repeated `report` with
`now` past `started` attributes the pending interval again (twice in
total), so `report` is not idempotent. -/
theorem c2_report_state_effect (p : Profile) (now : Nat) :
    ((report p now).1).started = p.started
      ∧ ((report p now).1).counts = p.counts
      ∧ ((report p now).1).stack = p.stack
      ∧ (p.started < now →
          lookupD ((report (report p now).1 now).1).times p.stack 0
            = lookupD p.times p.stack 0 + 2 * (now - p.started)) := by
  refine ⟨?_, ?_, ?_, ?_⟩
  · simp only [report, Profile.add_time]
    by_cases h : p.started < now <;> simp [h]
  · simp only [report, Profile.add_time]
    by_cases h : p.started < now <;> simp [h]
  · simp only [report, Profile.add_time]
    by_cases h : p.started < now <;> simp [h]
  · intro h
    simp only [report, Profile.add_time, h, if_pos]
    simp [lookupD_add_to_map_self, Nat.two_mul, Nat.add_assoc]

/-- Witness for the amended claim C2 at `pC2`, `now = 5`. -/
theorem c2_report_state_effect_witness :
    ((report pC2 5).1).started = pC2.started
      ∧ ((report pC2 5).1).counts = pC2.counts
      ∧ ((report pC2 5).1).stack = pC2.stack
      ∧ (pC2.started < 5 →
          lookupD ((report (report pC2 5).1 5).1).times pC2.stack 0
            = lookupD pC2.times pC2.stack 0 + 2 * (5 - pC2.started)) :=
  c2_report_state_effect pC2 5

/-! ## Claim C8 -/

/-- Counterexample for claim C8 as stated: dropping a `Guard` while the
active stack is empty does not produce a fatal error; `Vec::pop` returns
`None`, the source discards it, and execution continues in a normal
state (here the pending 5 units are even committed to the empty path). -/
theorem c8_underflow_counterexample :
    Guard.drop (Profile.new 0) 5 7
        = { times := [([], 5)], counts := [], stack := [], started := 7 }
      ∧ (Guard.drop (Profile.new 0) 5 7).stack = [] := by decide

/-- Claim C8, amended: releasing more `Guard`s than were begun is a
silent no-op on the stack, not a fatal error: the pending interval is
still committed (to the empty path), the counts are untouched, the stack
stays empty, and `started` is rebased as usual. -/
theorem c8_underflow_noop (p : Profile) (n1 n2 : Nat) (h : p.stack = []) :
    (Guard.drop p n1 n2).stack = []
      ∧ (Guard.drop p n1 n2).counts = p.counts
      ∧ (Guard.drop p n1 n2).times = (p.add_time n1).times
      ∧ (Guard.drop p n1 n2).started = n2 := by
  unfold Guard.drop Profile.add_time
  by_cases hc : p.started < n1 <;> simp [h, hc]

/-- Witness for the amended claim C8 on a fresh profile. -/
theorem c8_underflow_noop_witness :
    (Guard.drop (Profile.new 3) 5 7).stack = []
      ∧ (Guard.drop (Profile.new 3) 5 7).counts = (Profile.new 3).counts
      ∧ (Guard.drop (Profile.new 3) 5 7).times = ((Profile.new 3).add_time 5).times
      ∧ (Guard.drop (Profile.new 3) 5 7).started = 7 :=
  c8_underflow_noop (Profile.new 3) 5 7 rfl

/-! ## Claim C3 -/

theorem sum_snd_add_to_map {α : Type} [DecidableEq α] (m : List (α × Nat)) (k : α) (d : Nat) :
    ((add_to_map m k d).map Prod.snd).sum = (m.map Prod.snd).sum + d := by
  induction m with
  | nil => simp [add_to_map]
  | cons kv m ih =>
    obtain ⟨a, v⟩ := kv
    by_cases h1 : a = k <;> simp [add_to_map, h1, ih] <;> omega

theorem sumTimes_add_time (p : Profile) (n : Nat) :
    sumTimes (p.add_time n) = sumTimes p + (if p.started < n then n - p.started else 0) := by
  unfold Profile.add_time sumTimes
  by_cases h : p.started < n <;> simp [h, sum_snd_add_to_map]

theorem sumTimes_add_time_le (p : Profile) (n1 base : Nat) (h1 : p.started ≤ n1)
    (hsum : sumTimes p + base ≤ p.started) : sumTimes (p.add_time n1) + base ≤ n1 := by
  rw [sumTimes_add_time]
  by_cases hlt : p.started < n1 <;> simp [hlt] <;> omega

theorem monoFrom_anti (a b : Nat) (tr : List (Op × Nat × Nat)) (hab : a ≤ b)
    (h : monoFrom b tr = true) : monoFrom a tr = true := by
  cases tr with
  | nil => rfl
  | cons x tr =>
    obtain ⟨op, n1, n2⟩ := x
    simp only [monoFrom, Bool.and_eq_true, decide_eq_true_eq] at h ⊢
    exact ⟨⟨Nat.le_trans hab h.1.1, h.1.2⟩, h.2⟩

theorem sum_bound_aux (tr : List (Op × Nat × Nat)) :
    ∀ (p : Profile) (base : Nat), monoFrom p.started tr = true → reportFree tr = true →
      sumTimes p + base ≤ p.started →
      sumTimes (runOps p tr) + lastClearFrom base tr ≤ (runOps p tr).started := by
  induction tr with
  | nil =>
    intro p base _ _ h
    simpa [runOps, lastClearFrom] using h
  | cons x tr ih =>
    intro p base hmono hfree hsum
    obtain ⟨op, n1, n2⟩ := x
    simp only [monoFrom, Bool.and_eq_true, decide_eq_true_eq] at hmono
    obtain ⟨⟨h1, h2⟩, hmono'⟩ := hmono
    simp only [reportFree, List.all_cons, Bool.and_eq_true] at hfree
    obtain ⟨hop, hfree'⟩ := hfree
    cases op with
    | push t =>
      simp only [runOps, step, lastClearFrom]
      apply ih (push p t n1 n2) base hmono' hfree'
      exact Nat.le_trans (sumTimes_add_time_le p n1 base h1 hsum) h2
    | replace t =>
      simp only [runOps, step, lastClearFrom]
      apply ih (Guard.replace p t n1 n2) base hmono' hfree'
      exact Nat.le_trans (sumTimes_add_time_le p n1 base h1 hsum) h2
    | drop =>
      simp only [runOps, step, lastClearFrom]
      apply ih (Guard.drop p n1 n2) base hmono' hfree'
      exact Nat.le_trans (sumTimes_add_time_le p n1 base h1 hsum) h2
    | clear =>
      simp only [runOps, step, lastClearFrom]
      apply ih (clear n1) n1 (monoFrom_anti n1 n2 tr h2 hmono') hfree'
      simp [sumTimes, clear]
    | report =>
      simp [isReport] at hop

/-- Counterexample for claim C3 as stated: `push("a")` at instant 0,
then two `report`s at instants 5 and 9 — a monotone clock, no `clear` —
leave 14 units of recorded duration although only 9 units of wall clock
have elapsed since creation, because `report` commits without advancing
`started` and the second commit covers an interval overlapping the
first.  So the sum of stored durations can exceed the elapsed time. -/
theorem c3_sum_bound_counterexample :
    monoFrom 0 [(Op.push "a", 0, 0), (Op.report, 5, 5), (Op.report, 9, 9)] = true
      ∧ lastClearFrom 0 [(Op.push "a", 0, 0), (Op.report, 5, 5), (Op.report, 9, 9)] = 0
      ∧ sumTimes (runOps (Profile.new 0)
          [(Op.push "a", 0, 0), (Op.report, 5, 5), (Op.report, 9, 9)]) = 14
      ∧ 9 < sumTimes (runOps (Profile.new 0)
          [(Op.push "a", 0, 0), (Op.report, 5, 5), (Op.report, 9, 9)]) := by decide

/-- Claim C3, amended: for every execution under a monotone clock that
contains no `report` operation, the sum of all stored durations plus the
instant of the last `clear` (or creation) is at most `started`, the most
recent clock reading — i.e. the recorded total never exceeds the wall
clock elapsed since the last `clear`.  Each mutation commits a disjoint
interval and rebases `started`; the bound fails only for `report`, which
commits without rebasing (see the counterexample). -/
theorem c3_sum_le_elapsed_reportfree (t0 : Nat) (tr : List (Op × Nat × Nat))
    (hmono : monoFrom t0 tr = true) (hfree : reportFree tr = true) :
    sumTimes (runOps (Profile.new t0) tr) + lastClearFrom t0 tr
      ≤ (runOps (Profile.new t0) tr).started :=
  sum_bound_aux tr (Profile.new t0) t0 hmono hfree (by simp [sumTimes, Profile.new])

/-- Witness for the amended claim C3 on a concrete monotone history. -/
theorem c3_sum_le_elapsed_reportfree_witness :
    sumTimes (runOps (Profile.new 0) [(Op.push "a", 1, 2), (Op.drop, 5, 6)])
        + lastClearFrom 0 [(Op.push "a", 1, 2), (Op.drop, 5, 6)]
      ≤ (runOps (Profile.new 0) [(Op.push "a", 1, 2), (Op.drop, 5, 6)]).started :=
  c3_sum_le_elapsed_reportfree 0 [(Op.push "a", 1, 2), (Op.drop, 5, 6)]
    (by decide) (by decide)

/-! ## Claims C4 and C5: the accumulation loops of `report` -/

theorem lookupD_applyAdds {α : Type} [DecidableEq α] (adds : List (α × Nat)) :
    ∀ (init : List (α × Nat)) (k : α),
      lookupD (applyAdds init adds) k 0
        = lookupD init k 0 + (adds.map (fun a => if k = a.1 then a.2 else 0)).sum := by
  induction adds with
  | nil => simp [applyAdds]
  | cons a adds ih =>
    intro init k
    obtain ⟨b, d⟩ := a
    show lookupD (applyAdds (add_to_map init b d) adds) k 0 = _
    rw [ih (add_to_map init b d) k, lookupD_add_to_map init b k d]
    simp [Nat.add_assoc]

theorem applyAdds_append {α : Type} [DecidableEq α] (init : List (α × Nat))
    (a b : List (α × Nat)) : applyAdds init (a ++ b) = applyAdds (applyAdds init a) b := by
  simp [applyAdds, List.foldl_append]

theorem foldl_add_to_map_map {α β : Type} [DecidableEq α] (l : List β)
    (f : β → α × Nat) (init : List (α × Nat)) :
    (l.map f).foldl (fun c a => add_to_map c a.1 a.2) init
      = l.foldl (fun c x => add_to_map c (f x).1 (f x).2) init := by
  rw [List.foldl_map]

theorem cumFold_eq_applyAdds (D : List String → Nat) (ks : List (List String)) :
    ∀ init : List (String × Nat),
      ks.foldl (fun c k => k.foldl (fun c s => add_to_map c s (D k)) c) init
        = applyAdds init (ks.flatMap (fun k => k.map (fun s => (s, D k)))) := by
  induction ks with
  | nil => intro init; simp [applyAdds]
  | cons k ks ih =>
    intro init
    have hinner : k.foldl (fun c s => add_to_map c s (D k)) init
        = applyAdds init (k.map (fun s => (s, D k))) := by
      unfold applyAdds
      rw [foldl_add_to_map_map]
    simp only [List.foldl_cons, List.flatMap_cons, applyAdds_append]
    rw [ih, hinner]

theorem sum_flatMap_nat {α : Type} (l : List α) (f : α → List Nat) :
    (l.flatMap f).sum = (l.map (fun a => (f a).sum)).sum := by
  induction l with
  | nil => simp
  | cons a l ih => simp [ih]

theorem sum_map_ite_count (s : String) (k : List String) (d : Nat) :
    (k.map (fun x => if s = x then d else 0)).sum = k.count s * d := by
  induction k with
  | nil => simp
  | cons a k ih =>
    by_cases h : s = a
    · subst h
      simp [List.count_cons, ih, Nat.succ_mul, Nat.add_comm]
    · have : ¬ a = s := fun ha => h ha.symm
      simp [List.count_cons, ih, h, this]

theorem lookupD_cumFold (D : List String → Nat) (ks : List (List String)) (s : String) :
    lookupD (ks.foldl (fun c k => k.foldl (fun c s => add_to_map c s (D k)) c) []) s 0
      = (ks.map (fun k => k.count s * D k)).sum := by
  rw [cumFold_eq_applyAdds D ks [], lookupD_applyAdds]
  simp only [List.map_flatMap, sum_flatMap_nat, List.map_map]
  have : lookupD ([] : List (String × Nat)) s 0 = 0 := rfl
  rw [this, Nat.zero_add]
  congr 1
  apply List.map_congr_left
  intro k _
  have hcomp : ((fun a : String × Nat => if s = a.1 then a.2 else 0) ∘ fun x => (x, D k))
      = fun x => if s = x then D k else 0 := by
    funext x
    simp [Function.comp]
  rw [hcomp, sum_map_ite_count]

/-- Counterexample for claim C4 as stated: in the state `pC4` the only
path is `["a", "a"]` with 3 stored units, so the spec-side cumulative
figure for `"a"` ("every Path containing s contributing exactly once")
is 3 — but `report` iterates `for &s in k.iter()` and adds `times[k]`
once per *occurrence* of the label, producing `cum["a"] = 6`. -/
theorem c4_cum_counterexample :
    ((report pC4 3).1).times = [(["a", "a"], 3)]
      ∧ lookupD (cum ((report pC4 3).1)) "a" 0 = 6
      ∧ specCum ((report pC4 3).1) "a" = 3
      ∧ lookupD (cum ((report pC4 3).1)) "a" 0 ≠ specCum ((report pC4 3).1) "a" := by
  decide

/-- Claim C4, amended: for every label `s`, `cum[s]` is the sum over the
path keys of the times map (enumerated by the sorted `keys` list) of the
stored duration of the path multiplied by the number of occurrences of
`s` in that path — i.e. a path containing `s` once contributes exactly
once, but a path containing `s` several times contributes once per
occurrence.  `cumcount[s]` is computed analogously from the counts map. -/
theorem c4_cum_occurrences (m : Profile) (s : String) :
    lookupD (cum m) s 0 = ((keys m).map (fun k => k.count s * lookupD m.times k 0)).sum
      ∧ lookupD (cumcount m) s 0
        = ((keys m).map (fun k => k.count s * lookupD m.counts k 0)).sum :=
  ⟨lookupD_cumFold (fun k => lookupD m.times k 0) (keys m) s,
   lookupD_cumFold (fun k => lookupD m.counts k 0) (keys m) s⟩

theorem wayKey_eq_specWayKey (k : List String) (s : String) :
    wayKey k s = specWayKey k s := by
  induction k with
  | nil => simp [wayKey, specWayKey]
  | cons a k ih =>
    by_cases h : a = s
    · subst h
      simp [wayKey, specWayKey, firstIdx]
    · have hne : (a != s) = true := by simp [h]
      by_cases hm : s ∈ k
      · have hm' : s ∈ a :: k := List.mem_cons_of_mem a hm
        simp only [wayKey, List.takeWhile_cons, hne, if_true, List.cons_append,
          specWayKey, if_pos hm', if_pos hm, firstIdx, if_neg h] at ih ⊢
        rw [List.take_succ_cons]
        exact congrArg (a :: ·) (by simpa [wayKey, specWayKey, if_pos hm] using ih)
      · have hm' : ¬ s ∈ a :: k := by
          intro hc
          rcases List.mem_cons.mp hc with hc | hc
          · exact h hc.symm
          · exact hm hc
        simp only [wayKey, List.takeWhile_cons, hne, if_true, List.cons_append,
          specWayKey, if_neg hm', if_neg hm] at ih ⊢
        rw [ih]

theorem lookupD_waysFold (D : List String → Nat) (s : String) (ks : List (List String))
    (w : List String) :
    lookupD (ks.foldl (fun c k => add_to_map c (wayKey k s) (D k)) []) w 0
      = (ks.map (fun k => if w = wayKey k s then D k else 0)).sum := by
  have h : ks.foldl (fun c k => add_to_map c (wayKey k s) (D k)) []
      = applyAdds ([] : List (List String × Nat)) (ks.map (fun k => (wayKey k s, D k))) := by
    unfold applyAdds
    rw [foldl_add_to_map_map]
  rw [h, lookupD_applyAdds]
  have h0 : lookupD ([] : List (List String × Nat)) w 0 = 0 := rfl
  rw [h0, Nat.zero_add, List.map_map]
  apply congrArg
  apply List.map_congr_left
  intro k _
  simp [Function.comp]

/-- Claim C5: in `report`, for each label `s` the ways are computed by
grouping every sorted path key that contains `s` under the sub-path of
the key up to and including the first occurrence of `s` (`wayKey`, which
provably equals the spec-side `specWayKey`), and summing the stored
durations — and analogously the counts — per distinct way key. -/
theorem c5_ways_grouping (m : Profile) (s : String) (w k : List String) :
    lookupD (ways m s) w 0
        = (((keys m).filter (fun x => x.contains s)).map
            (fun x => if w = wayKey x s then lookupD m.times x 0 else 0)).sum
      ∧ lookupD (wayscount m s) w 0
        = (((keys m).filter (fun x => x.contains s)).map
            (fun x => if w = wayKey x s then lookupD m.counts x 0 else 0)).sum
      ∧ wayKey k s = specWayKey k s :=
  ⟨lookupD_waysFold (fun x => lookupD m.times x 0) s ((keys m).filter (fun x => x.contains s)) w,
   lookupD_waysFold (fun x => lookupD m.counts x 0) s ((keys m).filter (fun x => x.contains s)) w,
   wayKey_eq_specWayKey k s⟩

/-! ## Claim C6 -/

theorem sorted_byValue {α : Type} [DecidableEq α] (c : List (α × Nat)) (l : List α) :
    List.Sorted (fun a b => lookupD c a 0 ≤ lookupD c b 0)
      (@List.insertionSort α (fun a b => lookupD c a 0 ≤ lookupD c b 0)
        (fun a b => Nat.decLe (lookupD c a 0) (lookupD c b 0)) l) :=
  @List.sorted_insertionSort α (fun a b => lookupD c a 0 ≤ lookupD c b 0)
    (fun a b => Nat.decLe (lookupD c a 0) (lookupD c b 0))
    ⟨fun a b => Nat.le_total (lookupD c a 0) (lookupD c b 0)⟩
    ⟨fun _ _ _ hab hbc => Nat.le_trans hab hbc⟩ l

/-- Counterexample for claim C6 as stated: in the state `pC6` the labels
`"a"` and `"b"` have equal cumulative durations (5 each).  The claimed
tie-break by the label's natural order would emit `"a"` before `"b"`,
but the source's `sort_by_key` + `reverse` reverses the relative order
of tied labels from the pre-sort enumeration of the `cum` map (which in
the source is an arbitrary hash-map iteration order, so the tie order is
not even deterministic in the records), and the model yields
`["b", "a"]`. -/
theorem c6_order_counterexample :
    shortkeys ((report pC6 10).1) = ["b", "a"]
      ∧ lookupD (cum ((report pC6 10).1)) "a" 0 = lookupD (cum ((report pC6 10).1)) "b" 0
      ∧ shortkeys ((report pC6 10).1) ≠ ["a", "b"] := by decide

/-- Claim C6, amended: labels are emitted in non-increasing order of
cumulative duration, and the ways under each label in non-increasing
order of summed duration; the order among ties, however, follows the
reversed (arbitrary, hash-map-iteration) pre-sort enumeration rather
than the label's or way-key's natural order, so tied lines have no
guaranteed relative order. -/
theorem c6_sorted_desc (m : Profile) :
    List.Pairwise (fun a b => lookupD (cum m) b 0 ≤ lookupD (cum m) a 0) (shortkeys m)
      ∧ ∀ s : String, List.Pairwise
          (fun a b => lookupD (ways m s) b 0 ≤ lookupD (ways m s) a 0) (waykeys m s) := by
  constructor
  · unfold shortkeys
    rw [List.pairwise_reverse]
    exact sorted_byValue (cum m) ((cum m).map Prod.fst)
  · intro s
    unfold waykeys
    rw [List.pairwise_reverse]
    exact sorted_byValue (ways m s) ((ways m s).map Prod.fst)

/-! ## Claim C7 -/

theorem blank_not_mem_linesFor (m : Profile) (s : String) : RLine.blank ∉ linesFor m s := by
  unfold linesFor
  by_cases h : 1 < (waykeys m s).length <;> simp [h]

/-- Counterexample for claim C7 as stated: in the state reached through
`pC7` the label `"c"` has two ways, so the report emits its header line
followed by two indented way lines — but no blank separator line follows
the group (the next label's line follows immediately; the source's
format strings all end in a single newline and no empty line is ever
pushed). -/
theorem c7_blank_line_counterexample :
    (report pC7 8).2
        = [RLine.line false "c" 8 2,
           RLine.line true "a:c:" 5 1,
           RLine.line true "b:c:" 3 1,
           RLine.line false "a:" 5 1,
           RLine.line false "b:" 3 1]
      ∧ RLine.blank ∉ (report pC7 8).2 := by decide

/-- Claim C7, amended: a label with more than one way produces a header
line (unindented, showing the label and the cumulative figures) followed
by one indented line per way (re-filtered by `k.contains(s)`, a no-op),
and a label with at most one way produces a single unindented line
showing the pretty-printed way path with the cumulative figures — but no
blank separator line is ever emitted. -/
theorem c7_line_structure (m : Profile) (s : String) :
    (1 < (waykeys m s).length →
      linesFor m s
        = RLine.line false s (lookupD (cum m) s 0) (lookupD (cumcount m) s 0)
          :: ((waykeys m s).filter (fun k => k.contains s)).map
              (fun k => RLine.line true (pretty_stack k)
                (lookupD (ways m s) k 0) (lookupD (wayscount m s) k 0)))
      ∧ (¬ 1 < (waykeys m s).length →
          linesFor m s = [RLine.line false (pretty_stack ((waykeys m s).headD []))
            (lookupD (cum m) s 0) (lookupD (cumcount m) s 0)])
      ∧ RLine.blank ∉ linesOf m := by
  refine ⟨fun h => ?_, fun h => ?_, ?_⟩
  · simp [linesFor, h]
  · simp [linesFor, h]
  · intro hmem
    rw [linesOf, List.mem_flatMap] at hmem
    obtain ⟨s', _, hs'⟩ := hmem
    exact blank_not_mem_linesFor m s' hs'

/-- Witness for the amended claim C7: the multi-way label `"c"` and the
single-way label `"a"` of the `pC7` report. -/
theorem c7_line_structure_witness :
    linesFor ((report pC7 8).1) "c"
        = RLine.line false "c" (lookupD (cum ((report pC7 8).1)) "c" 0)
            (lookupD (cumcount ((report pC7 8).1)) "c" 0)
          :: ((waykeys ((report pC7 8).1) "c").filter (fun k => k.contains "c")).map
              (fun k => RLine.line true (pretty_stack k)
                (lookupD (ways ((report pC7 8).1) "c") k 0)
                (lookupD (wayscount ((report pC7 8).1) "c") k 0))
      ∧ linesFor ((report pC7 8).1) "a"
        = [RLine.line false (pretty_stack ((waykeys ((report pC7 8).1) "a").headD []))
            (lookupD (cum ((report pC7 8).1)) "a" 0)
            (lookupD (cumcount ((report pC7 8).1)) "a" 0)] :=
  ⟨(c7_line_structure ((report pC7 8).1) "c").1 (by decide),
   (c7_line_structure ((report pC7 8).1) "a").2.1 (by decide)⟩

/-! ## Claims C9 and C10: invariants of reachable states -/

theorem add_time_stack (p : Profile) (n : Nat) : (p.add_time n).stack = p.stack := by
  unfold Profile.add_time
  split <;> rfl

theorem add_time_counts (p : Profile) (n : Nat) : (p.add_time n).counts = p.counts := by
  unfold Profile.add_time
  split <;> rfl

theorem push_proj (p : Profile) (t : String) (n1 n2 : Nat) :
    (push p t n1 n2).times = (p.add_time n1).times
      ∧ (push p t n1 n2).counts = increment_map p.counts (p.stack ++ [t]) 1
      ∧ (push p t n1 n2).stack = p.stack ++ [t] := by
  refine ⟨rfl, ?_, ?_⟩ <;> simp [push, add_time_counts, add_time_stack]

theorem replace_proj (p : Profile) (t : String) (n1 n2 : Nat) :
    (Guard.replace p t n1 n2).times = (p.add_time n1).times
      ∧ (Guard.replace p t n1 n2).counts = increment_map p.counts (p.stack.dropLast ++ [t]) 1
      ∧ (Guard.replace p t n1 n2).stack = p.stack.dropLast ++ [t] := by
  refine ⟨rfl, ?_, ?_⟩ <;> simp [Guard.replace, add_time_counts, add_time_stack]

theorem dropg_proj (p : Profile) (n1 n2 : Nat) :
    (Guard.drop p n1 n2).times = (p.add_time n1).times
      ∧ (Guard.drop p n1 n2).counts = p.counts
      ∧ (Guard.drop p n1 n2).stack = p.stack.dropLast := by
  refine ⟨rfl, ?_, ?_⟩ <;> simp [Guard.drop, add_time_counts, add_time_stack]

theorem mem_add_to_map_key {α : Type} [DecidableEq α] (m : List (α × Nat)) (k : α) (d : Nat)
    (kv : α × Nat) (h : kv ∈ add_to_map m k d) : kv.1 = k ∨ kv ∈ m := by
  induction m with
  | nil =>
    simp only [add_to_map, List.mem_singleton] at h
    subst h
    exact Or.inl rfl
  | cons a m ih =>
    obtain ⟨b, v⟩ := a
    by_cases h1 : b = k
    · simp only [add_to_map, if_pos h1, List.mem_cons] at h
      rcases h with h | h
      · subst h; exact Or.inl h1
      · exact Or.inr (List.mem_cons_of_mem _ h)
    · simp only [add_to_map, if_neg h1, List.mem_cons] at h
      rcases h with h | h
      · subst h; exact Or.inr (List.mem_cons_self _ _)
      · rcases ih h with h2 | h2
        · exact Or.inl h2
        · exact Or.inr (List.mem_cons_of_mem _ h2)

theorem lookup_increment_map_self {α : Type} [DecidableEq α] (m : List (α × Nat)) (k : α)
    (n : Nat) : (lookup (increment_map m k n) k).isSome := by
  induction m with
  | nil => simp [increment_map, lookup]
  | cons a m ih =>
    obtain ⟨b, v⟩ := a
    by_cases h1 : b = k <;> simp [increment_map, lookup, h1, ih]

theorem lookup_increment_map_isSome {α : Type} [DecidableEq α] (m : List (α × Nat)) (k j : α)
    (n : Nat) (h : (lookup m j).isSome) : (lookup (increment_map m k n) j).isSome := by
  induction m with
  | nil => simp [lookup] at h
  | cons a m ih =>
    obtain ⟨b, v⟩ := a
    by_cases h1 : b = k <;> by_cases h2 : b = j <;>
      simp_all [increment_map, lookup]

theorem increment_map_pos {α : Type} [DecidableEq α] (m : List (α × Nat)) (k : α) (n : Nat)
    (hn : 1 ≤ n) : (∀ kv ∈ m, 1 ≤ kv.2) → ∀ kv ∈ increment_map m k n, 1 ≤ kv.2 := by
  induction m with
  | nil =>
    intro _ kv hkv
    simp only [increment_map, List.mem_singleton] at hkv
    subst hkv
    exact hn
  | cons a m ih =>
    obtain ⟨b, v⟩ := a
    intro hm kv hkv
    by_cases h1 : b = k
    · simp only [increment_map, if_pos h1, List.mem_cons] at hkv
      rcases hkv with h | h
      · subst h
        have := hm (b, v) (List.mem_cons_self _ _)
        simp at this ⊢
        omega
      · exact hm kv (List.mem_cons_of_mem _ h)
    · simp only [increment_map, if_neg h1, List.mem_cons] at hkv
      rcases hkv with h | h
      · subst h
        exact hm (b, v) (List.mem_cons_self _ _)
      · exact ih (fun x hx => hm x (List.mem_cons_of_mem _ hx)) kv h

theorem lookup_mem {α : Type} [DecidableEq α] (m : List (α × Nat)) (k : α) (n : Nat)
    (h : lookup m k = some n) : (k, n) ∈ m := by
  induction m with
  | nil => simp [lookup] at h
  | cons a m ih =>
    obtain ⟨b, v⟩ := a
    by_cases h1 : b = k
    · subst h1
      have hb : lookup ((b, v) :: m) b = some v := by simp [lookup]
      rw [hb] at h
      cases Option.some.inj h
      exact List.mem_cons_self _ _
    · simp only [lookup, if_neg h1] at h
      exact List.mem_cons_of_mem _ (ih h)

theorem countsinv_add_time_times (p : Profile) (n : Nat)
    (h1 : ∀ kv ∈ p.times, kv.1 = [] ∨ (lookup p.counts kv.1).isSome)
    (h2 : ∀ nn : Nat, p.stack.take nn ≠ [] → (lookup p.counts (p.stack.take nn)).isSome) :
    ∀ kv ∈ (p.add_time n).times, kv.1 = [] ∨ (lookup p.counts kv.1).isSome := by
  unfold Profile.add_time
  by_cases h : p.started < n
  · simp only [if_pos h]
    intro kv hkv
    rcases mem_add_to_map_key p.times p.stack (n - p.started) kv hkv with hk | hk
    · by_cases hs : p.stack = []
      · exact Or.inl (hk.trans hs)
      · refine Or.inr ?_
        rw [hk]
        have := h2 p.stack.length (by rw [List.take_length]; exact hs)
        rwa [List.take_length] at this
    · exact h1 kv hk
  · simpa [h] using h1

theorem take_append_cases (l : List String) (t : String) (n : Nat) :
    (l ++ [t]).take n = l.take n ∨ (l ++ [t]).take n = l ++ [t] := by
  by_cases h : n ≤ l.length
  · left
    rw [List.take_append_eq_append_take, Nat.sub_eq_zero_of_le h, List.take_zero,
      List.append_nil]
  · right
    apply List.take_of_length_le
    simp
    omega

theorem take_dropLast_eq (l : List String) (n : Nat) :
    l.dropLast.take n = l.take (min n (l.length - 1)) := by
  rw [List.dropLast_eq_take, List.take_take]

theorem countsInv_step (p : Profile) (op : Op) (n1 n2 : Nat) (h : CountsInv p) :
    CountsInv (step p op n1 n2) := by
  obtain ⟨h1, h2, h3⟩ := h
  cases op with
  | push t =>
    obtain ⟨ht, hc, hs⟩ := push_proj p t n1 n2
    show CountsInv (push p t n1 n2)
    refine ⟨?_, ?_, ?_⟩
    · rw [ht, hc]
      intro kv hkv
      rcases countsinv_add_time_times p n1 h1 h2 kv hkv with hk | hk
      · exact Or.inl hk
      · exact Or.inr (lookup_increment_map_isSome p.counts _ kv.1 1 hk)
    · rw [hs, hc]
      intro n hn
      rcases take_append_cases p.stack t n with hcase | hcase
      · rw [hcase] at hn ⊢
        exact lookup_increment_map_isSome p.counts _ _ 1 (h2 n hn)
      · rw [hcase]
        exact lookup_increment_map_self p.counts (p.stack ++ [t]) 1
    · rw [hc]
      exact increment_map_pos p.counts (p.stack ++ [t]) 1 (Nat.le_refl 1) h3
  | replace t =>
    obtain ⟨ht, hc, hs⟩ := replace_proj p t n1 n2
    show CountsInv (Guard.replace p t n1 n2)
    refine ⟨?_, ?_, ?_⟩
    · rw [ht, hc]
      intro kv hkv
      rcases countsinv_add_time_times p n1 h1 h2 kv hkv with hk | hk
      · exact Or.inl hk
      · exact Or.inr (lookup_increment_map_isSome p.counts _ kv.1 1 hk)
    · rw [hs, hc]
      intro n hn
      rcases take_append_cases p.stack.dropLast t n with hcase | hcase
      · rw [hcase, take_dropLast_eq] at hn ⊢
        exact lookup_increment_map_isSome p.counts _ _ 1 (h2 _ hn)
      · rw [hcase]
        exact lookup_increment_map_self p.counts (p.stack.dropLast ++ [t]) 1
    · rw [hc]
      exact increment_map_pos p.counts (p.stack.dropLast ++ [t]) 1 (Nat.le_refl 1) h3
  | drop =>
    obtain ⟨ht, hc, hs⟩ := dropg_proj p n1 n2
    show CountsInv (Guard.drop p n1 n2)
    refine ⟨?_, ?_, ?_⟩
    · rw [ht, hc]
      exact countsinv_add_time_times p n1 h1 h2
    · rw [hs, hc]
      intro n hn
      rw [take_dropLast_eq] at hn ⊢
      exact h2 _ hn
    · rw [hc]
      exact h3
  | clear =>
    show CountsInv (clear n1)
    refine ⟨?_, ?_, ?_⟩ <;> intro x hx <;> simp [clear] at hx ⊢
  | report =>
    show CountsInv ((report p n1).1)
    refine ⟨?_, ?_, ?_⟩
    · show ∀ kv ∈ (p.add_time n1).times, kv.1 = [] ∨ (lookup (p.add_time n1).counts kv.1).isSome
      rw [add_time_counts]
      exact countsinv_add_time_times p n1 h1 h2
    · show ∀ n : Nat, (p.add_time n1).stack.take n ≠ [] →
        (lookup (p.add_time n1).counts ((p.add_time n1).stack.take n)).isSome
      rw [add_time_counts, add_time_stack]
      exact h2
    · show ∀ kv ∈ (p.add_time n1).counts, 1 ≤ kv.2
      rw [add_time_counts]
      exact h3

theorem countsInv_reachable (p : Profile) (h : Reachable p) : CountsInv p := by
  induction h with
  | init t0 =>
    refine ⟨?_, ?_, ?_⟩
    · intro kv hkv
      simp [Profile.new] at hkv
    · intro n hn
      simp [Profile.new] at hn
    · intro kv hkv
      simp [Profile.new] at hkv
  | next q op n1 n2 hr ih => exact countsInv_step q op n1 n2 ih

theorem add_to_map_all_pos {α : Type} [DecidableEq α] (m : List (α × Nat)) (k : α) (d : Nat)
    (hd : 0 < d) : (∀ kv ∈ m, 0 < kv.2) → ∀ kv ∈ add_to_map m k d, 0 < kv.2 := by
  induction m with
  | nil =>
    intro _ kv hkv
    simp only [add_to_map, List.mem_singleton] at hkv
    subst hkv
    exact hd
  | cons a m ih =>
    obtain ⟨b, v⟩ := a
    intro hm kv hkv
    by_cases h1 : b = k
    · simp only [add_to_map, if_pos h1, List.mem_cons] at hkv
      rcases hkv with h | h
      · subst h
        have := hm (b, v) (List.mem_cons_self _ _)
        simp at this ⊢
        omega
      · exact hm kv (List.mem_cons_of_mem _ h)
    · simp only [add_to_map, if_neg h1, List.mem_cons] at hkv
      rcases hkv with h | h
      · subst h
        exact hm (b, v) (List.mem_cons_self _ _)
      · exact ih (fun x hx => hm x (List.mem_cons_of_mem _ hx)) kv h

theorem times_pos_add_time (p : Profile) (n : Nat)
    (hp : ∀ kv ∈ p.times, 0 < kv.2) : ∀ kv ∈ (p.add_time n).times, 0 < kv.2 := by
  unfold Profile.add_time
  by_cases h : p.started < n
  · simp only [if_pos h]
    exact add_to_map_all_pos p.times p.stack (n - p.started) (by omega) hp
  · simpa [h] using hp

theorem times_pos_of_reachable (p : Profile) (hp : Reachable p) :
    ∀ kv ∈ p.times, 0 < kv.2 := by
  induction hp with
  | init t0 =>
    intro kv hkv
    simp [Profile.new] at hkv
  | next q op n1 n2 hr ih =>
    cases op with
    | push t =>
      have ht : (step q (Op.push t) n1 n2).times = (q.add_time n1).times := rfl
      rw [ht]
      exact times_pos_add_time q n1 ih
    | replace t =>
      have ht : (step q (Op.replace t) n1 n2).times = (q.add_time n1).times := rfl
      rw [ht]
      exact times_pos_add_time q n1 ih
    | drop =>
      have ht : (step q Op.drop n1 n2).times = (q.add_time n1).times := rfl
      rw [ht]
      exact times_pos_add_time q n1 ih
    | clear =>
      intro kv hkv
      simp [step, clear] at hkv
    | report =>
      have ht : (step q Op.report n1 n2).times = (q.add_time n1).times := rfl
      rw [ht]
      exact times_pos_add_time q n1 ih

theorem eq_nil_of_sum_zero_of_pos (l : List (List String × Nat))
    (hpos : ∀ kv ∈ l, 0 < kv.2) (hz : (l.map Prod.snd).sum = 0) : l = [] := by
  cases l with
  | nil => rfl
  | cons kv l =>
    exfalso
    have h1 := hpos kv (List.mem_cons_self _ _)
    simp [List.map_cons, List.sum_cons] at hz
    omega

theorem linesOf_times_nil (m : Profile) (h : m.times = []) : linesOf m = [] := by
  have hk : keys m = [] := by
    simp [keys, h, List.insertionSort]
  have hc : cum m = [] := by
    simp [cum, hk]
  simp [linesOf, shortkeys, hc, List.insertionSort]

/-- Claim C9: in every reachable state, if the total accumulated
duration computed by `report` (after its final commit) is zero, then
the `times` map is empty — every stored duration in a reachable state is
strictly positive — so the label loop never runs, no line is emitted,
and in particular no percentage is ever computed from the zero total
(the `100.0 * … / total` expressions are per-line and are never
reached). -/
theorem c9_zero_total_no_lines (p : Profile) (now : Nat) (hr : Reachable p)
    (hz : sumTimes ((report p now).1) = 0) : (report p now).2 = [] := by
  have hreach : Reachable ((report p now).1) := Reachable.next p Op.report now now hr
  have hpos := times_pos_of_reachable _ hreach
  have hnil : ((report p now).1).times = [] :=
    eq_nil_of_sum_zero_of_pos _ hpos hz
  show linesOf (p.add_time now) = []
  exact linesOf_times_nil _ hnil

/-- Witness for claim C9 on a fresh profile: total 0, no lines. -/
theorem c9_zero_total_no_lines_witness : (report (Profile.new 0) 0).2 = [] :=
  c9_zero_total_no_lines (Profile.new 0) 0 (Reachable.init 0) (by decide)

/-- Claim C10: in every reachable state — i.e. after every sequence of
public operations — every non-empty path key of the `times` map is also
a key of the `counts` map with a value of at least 1, and every stored
count is at least 1.  Consequently the `m.counts[k]` lookups of `report`
(performed only for non-empty keys of `times`, since the label and way
loops skip the empty path) never fail, and the per-count averages divide
by a positive integer. -/
theorem c10_times_key_counted (p : Profile) (hr : Reachable p) :
    (∀ kv ∈ p.times, kv.1 ≠ [] → ∃ n, lookup p.counts kv.1 = some n ∧ 1 ≤ n)
      ∧ (∀ kv ∈ p.counts, 1 ≤ kv.2) := by
  obtain ⟨h1, h2, h3⟩ := countsInv_reachable p hr
  refine ⟨?_, h3⟩
  intro kv hkv hne
  rcases h1 kv hkv with h | h
  · exact absurd h hne
  · obtain ⟨n, hn⟩ := Option.isSome_iff_exists.mp h
    exact ⟨n, hn, h3 (kv.1, n) (lookup_mem p.counts kv.1 n hn)⟩

/-- Witness for claim C10: after `push("a")` at instant 0 and a guard
drop at instant 5, the non-empty times key `["a"]` is counted once. -/
theorem c10_times_key_counted_witness :
    ∃ n, lookup (step (step (Profile.new 0) (Op.push "a") 0 0) Op.drop 5 5).counts ["a"]
        = some n ∧ 1 ≤ n :=
  (c10_times_key_counted (step (step (Profile.new 0) (Op.push "a") 0 0) Op.drop 5 5)
      (Reachable.next (step (Profile.new 0) (Op.push "a") 0 0) Op.drop 5 5
        (Reachable.next (Profile.new 0) (Op.push "a") 0 0 (Reachable.init 0)))).1
    (["a"], 5) (by decide) (by decide)
